import Mathlib

/-!
Shallow embedding of the `monobd` repository's own logic: the model/variant
registry (`monobd/common/model.py`, `monobd/common/registry.py`), the
export-part naming and deduplication scheme, and the export entry point.
The CAD kernel (`build123d`) is external; only the structure this code
inspects — an assembly `Compound` tree with labels, children, leaves and
root-to-node paths — is modelled.
-/

namespace Monobd

/-- A `build123d` `Compound` as the repository code sees it: a labelled tree.
`label` and `children` mirror the attributes used by `Model.export_parts`. -/
inductive Compound where
  | node (label : String) (children : List Compound)

def Compound.label : Compound → String
  | .node l _ => l

def Compound.children : Compound → List Compound
  | .node _ cs => cs

/-- `Compound.is_leaf`: a node with no children (build123d / anytree). -/
def Compound.is_leaf (c : Compound) : Bool := c.children.isEmpty

mutual

/-- `Compound.leaves` (anytree semantics): the leaf nodes of the tree in
depth-first order; a childless node is its own single leaf. -/
def Compound.leaves : Compound → List Compound
  | .node l [] => [.node l []]
  | .node _ (c :: cs) => leavesList (c :: cs)

def leavesList : List Compound → List Compound
  | [] => []
  | c :: cs => c.leaves ++ leavesList cs

end

mutual

/-- For each leaf of the tree, the labels on its path from the root
(root label first, leaf label last, as `part.path` yields in anytree),
paired with the leaf itself. -/
def Compound.leafPaths : Compound → List (List String × Compound)
  | .node l [] => [([l], .node l [])]
  | .node l (c :: cs) =>
      (leafPathsList (c :: cs)).map (fun p => (l :: p.1, p.2))

def leafPathsList : List Compound → List (List String × Compound)
  | [] => []
  | c :: cs => c.leafPaths ++ leafPathsList cs

end

mutual

/-- Number of nodes of a tree (used to separate a leaf from a wrapping root). -/
def Compound.csize : Compound → Nat
  | .node _ [] => 1
  | .node _ (c :: cs) => 1 + csizeList (c :: cs)

def csizeList : List Compound → Nat
  | [] => 0
  | c :: cs => c.csize + csizeList cs

end

/-- `Model.export_parts._part_fq_name`: join the labels on the part's path
with `"."`, after appending `"-{variant_name}"` to the first (root) label
when `variant_name` is truthy (non-empty). -/
def part_fq_name (variant_name : String) (path_labels : List String) : String :=
  let path_parts :=
    if variant_name ≠ "" then
      path_labels.set 0 (path_labels.headD "" ++ "-" ++ variant_name)
    else path_labels
  String.intercalate "." path_parts

/-- A `Model` instance as `export_parts`/`export` consume it: its
`variant_name` field and its `assembly` cached property. -/
structure Model where
  variant_name : String
  assembly : Compound

/-- The accumulation loop in the multi-leaf branch of `Model.export_parts`:
insert each named part in order, raising on a name already present. -/
def insertParts (acc : List (String × Compound)) :
    List (String × Compound) → Except String (List (String × Compound))
  | [] => .ok acc
  | (nm, p) :: rest =>
      if acc.any (fun e => e.1 = nm) then
        .error ("Duplicate part name " ++ nm)
      else insertParts (acc ++ [(nm, p)]) rest

/-- `Model.export_parts`: the insertion-ordered mapping from export names to
parts. The assembly goes in first under its own fully-qualified name; when it
has exactly one leaf that entry is replaced by the leaf itself; otherwise each
leaf is added under its fully-qualified name, and a repeated name raises
`Exception("Duplicate part name {name}")`. -/
def Model.export_parts (m : Model) : Except String (List (String × Compound)) :=
  let assembly_part_name := part_fq_name m.variant_name [m.assembly.label]
  if m.assembly.leaves.length = 1 then
    .ok [(assembly_part_name, m.assembly.leaves.headD m.assembly)]
  else
    insertParts [(assembly_part_name, m.assembly)]
      ((m.assembly.leafPaths).map
        (fun lp => (part_fq_name m.variant_name lp.1, lp.2)))

/-- The fully-qualified name of the assembly root (its path is itself). -/
def Model.assembly_part_name (m : Model) : String :=
  part_fq_name m.variant_name [m.assembly.label]

/-- The fully-qualified names of the assembly's leaves, in traversal order. -/
def Model.leaf_part_names (m : Model) : List String :=
  m.assembly.leafPaths.map (fun lp => part_fq_name m.variant_name lp.1)

/-- The (name, leaf) pairs inserted by the multi-leaf branch of
`Model.export_parts`, in traversal order. -/
def Model.leaf_part_entries (m : Model) : List (String × Compound) :=
  m.assembly.leafPaths.map (fun lp => (part_fq_name m.variant_name lp.1, lp.2))

/-! ### Structural lemmas about assemblies -/

mutual

theorem Compound.leaves_ne_nil : ∀ c : Compound, c.leaves ≠ []
  | .node _ [] => by simp [Compound.leaves]
  | .node l (c :: cs) => by
      simp only [Compound.leaves, leavesList]
      intro h
      exact Compound.leaves_ne_nil c (List.append_eq_nil.mp h).1

end

mutual

theorem Compound.leafPaths_map_snd :
    ∀ c : Compound, c.leafPaths.map Prod.snd = c.leaves
  | .node l [] => by simp [Compound.leafPaths, Compound.leaves]
  | .node l (c :: cs) => by
      simp only [Compound.leafPaths, Compound.leaves, List.map_map]
      have h := leafPathsList_map_snd (c :: cs)
      simpa using h

theorem leafPathsList_map_snd :
    ∀ cs : List Compound, (leafPathsList cs).map Prod.snd = leavesList cs
  | [] => by simp [leafPathsList, leavesList]
  | c :: cs => by
      simp only [leafPathsList, leavesList, List.map_append]
      rw [Compound.leafPaths_map_snd c, leafPathsList_map_snd cs]

end

theorem Compound.leafPaths_length (c : Compound) :
    c.leafPaths.length = c.leaves.length := by
  rw [← Compound.leafPaths_map_snd c, List.length_map]

mutual

theorem Compound.csize_le_of_mem_leaves :
    ∀ (c : Compound), ∀ p ∈ c.leaves, p.csize ≤ c.csize
  | .node l [] => by simp [Compound.leaves]
  | .node l (c :: cs) => by
      intro p hp
      simp only [Compound.leaves] at hp
      have h := csizeList_le_of_mem_leavesList (c :: cs) p hp
      simp only [Compound.csize]
      omega

theorem csizeList_le_of_mem_leavesList :
    ∀ (cs : List Compound), ∀ p ∈ leavesList cs, p.csize ≤ csizeList cs
  | [] => by simp [leavesList]
  | c :: cs => by
      intro p hp
      simp only [leavesList, List.mem_append] at hp
      simp only [csizeList]
      rcases hp with hp | hp
      · have := Compound.csize_le_of_mem_leaves c p hp
        omega
      · have := csizeList_le_of_mem_leavesList cs p hp
        omega

end

theorem Compound.csize_lt_of_mem_leaves (l : String) (c0 : Compound)
    (cs : List Compound) :
    ∀ p ∈ (Compound.node l (c0 :: cs)).leaves,
      p.csize < (Compound.node l (c0 :: cs)).csize := by
  intro p hp
  simp only [Compound.leaves] at hp
  have := csizeList_le_of_mem_leavesList (c0 :: cs) p hp
  simp only [Compound.csize]
  omega

mutual

theorem Compound.leafPaths_fst_ne_nil :
    ∀ c : Compound, ∀ lp ∈ c.leafPaths, lp.1 ≠ []
  | .node l [] => by simp [Compound.leafPaths]
  | .node l (c :: cs) => by
      intro lp hlp
      simp only [Compound.leafPaths, List.mem_map] at hlp
      obtain ⟨q, _, hq⟩ := hlp
      simp [← hq]

theorem leafPathsList_fst_ne_nil :
    ∀ cs : List Compound, ∀ lp ∈ leafPathsList cs, lp.1 ≠ []
  | [] => by simp [leafPathsList]
  | c :: cs => by
      intro lp hlp
      simp only [leafPathsList, List.mem_append] at hlp
      rcases hlp with h | h
      · exact Compound.leafPaths_fst_ne_nil c lp h
      · exact leafPathsList_fst_ne_nil cs lp h

end

/-- Unfolding of `part_fq_name` on a non-empty path: the root (first) label
gets the `-variant` suffix exactly when the variant name is non-empty, and the
labels are joined with `"."`. -/
theorem part_fq_name_cons (v a : String) (rest : List String) :
    part_fq_name v (a :: rest) =
      String.intercalate "." ((if v = "" then a else a ++ "-" ++ v) :: rest) := by
  by_cases hv : v = ""
  · simp [part_fq_name, hv]
  · simp [part_fq_name, hv, List.set]

/-! ### Lemmas about the duplicate-checking insertion loop -/

theorem insertParts_ok_val :
    ∀ (l acc r : List (String × Compound)),
      insertParts acc l = .ok r → r = acc ++ l
  | [], acc, r => by
      intro h
      simp only [insertParts] at h
      cases h
      simp
  | (nm, p) :: rest, acc, r => by
      intro h
      simp only [insertParts] at h
      split at h
      · cases h
      · have := insertParts_ok_val rest (acc ++ [(nm, p)]) r h
        simpa using this

theorem insertParts_isOk_iff :
    ∀ (l acc : List (String × Compound)),
      (acc.map Prod.fst).Nodup →
      ((∃ r, insertParts acc l = .ok r) ↔
        (acc.map Prod.fst ++ l.map Prod.fst).Nodup)
  | [], acc => by
      intro hacc
      simp [insertParts, hacc]
  | (nm, p) :: rest, acc => by
      intro hacc
      simp only [insertParts]
      split
      · -- duplicate found: nm already among acc's names
        rename_i hdup
        simp only [List.any_eq_true, decide_eq_true_eq] at hdup
        obtain ⟨e, he, henm⟩ := hdup
        constructor
        · rintro ⟨r, hr⟩; cases hr
        · intro hnd
          exfalso
          simp only [List.map_cons] at hnd
          rw [List.nodup_middle, List.nodup_cons] at hnd
          exact hnd.1 (List.mem_append_left _
            (henm ▸ List.mem_map_of_mem Prod.fst he))
      · rename_i hdup
        simp only [List.any_eq_true, decide_eq_true_eq] at hdup
        push_neg at hdup
        have hnm : nm ∉ acc.map Prod.fst := by
          intro hmem
          obtain ⟨e, he, he2⟩ := List.mem_map.mp hmem
          exact hdup e he he2
        have hacc' : ((acc ++ [(nm, p)]).map Prod.fst).Nodup := by
          simp only [List.map_append, List.map_cons, List.map_nil]
          rw [List.nodup_middle, List.nodup_cons]
          exact ⟨by simpa using hnm, by simpa using hacc⟩
        have ih := insertParts_isOk_iff rest (acc ++ [(nm, p)]) hacc'
        rw [ih]
        have heq : (acc ++ [(nm, p)]).map Prod.fst ++ rest.map Prod.fst =
            acc.map Prod.fst ++ ((nm, p) :: rest).map Prod.fst := by simp
        rw [heq]

theorem insertParts_error :
    ∀ (l acc : List (String × Compound)) (e : String),
      insertParts acc l = .error e →
      ∃ nm, e = "Duplicate part name " ++ nm ∧ nm ∈ l.map Prod.fst ∧
        2 ≤ (acc.map Prod.fst ++ l.map Prod.fst).count nm
  | [], acc, e => by
      intro h
      simp only [insertParts] at h
      cases h
  | (nm, p) :: rest, acc, e => by
      intro h
      simp only [insertParts] at h
      split at h
      · rename_i hdup
        cases h
        simp only [List.any_eq_true, decide_eq_true_eq] at hdup
        obtain ⟨q, hq, hqnm⟩ := hdup
        refine ⟨nm, rfl, by simp, ?_⟩
        have h1 : 1 ≤ (acc.map Prod.fst).count nm := by
          apply List.one_le_count_iff.mpr
          exact hqnm ▸ List.mem_map_of_mem Prod.fst hq
        rw [List.count_append, List.map_cons, List.count_cons_self]
        omega
      · obtain ⟨nm', he, hmem, hcount⟩ :=
          insertParts_error rest (acc ++ [(nm, p)]) e h
        refine ⟨nm', he, by simp [hmem], ?_⟩
        have heq : (acc ++ [(nm, p)]).map Prod.fst ++ rest.map Prod.fst =
            acc.map Prod.fst ++ ((nm, p) :: rest).map Prod.fst := by simp
        rw [← heq]
        exact hcount

theorem leaf_part_entries_map_fst (m : Model) :
    m.leaf_part_entries.map Prod.fst = m.leaf_part_names := by
  simp [Model.leaf_part_entries, Model.leaf_part_names]

/-! ### Claim theorems about `Model.export_parts` -/

/-- C1: every export name produced by `export_parts` is the dot-joined list
of the labels on the named part's path from the assembly root (the assembly's
own path being just itself), where the root (first) label receives the suffix
`"-" ++ variant_name` exactly when `variant_name` is non-empty and is left
unchanged when `variant_name` is the empty string. -/
theorem C1_export_part_names (m : Model) (l : List (String × Compound))
    (hok : m.export_parts = .ok l) :
    ∀ nm p, (nm, p) ∈ l →
      ∃ a rest,
        (a :: rest = [m.assembly.label] ∨
          (a :: rest, p) ∈ m.assembly.leafPaths) ∧
        nm = String.intercalate "."
          ((if m.variant_name = "" then a else a ++ "-" ++ m.variant_name)
            :: rest) := by
  intro nm p hmem
  simp only [Model.export_parts] at hok
  split at hok
  · -- single-leaf branch
    cases hok
    simp only [List.mem_singleton, Prod.mk.injEq] at hmem
    refine ⟨m.assembly.label, [], Or.inl rfl, ?_⟩
    rw [hmem.1, part_fq_name_cons]
  · -- multi-leaf branch
    have hval := insertParts_ok_val _ _ _ hok
    rw [hval] at hmem
    simp only [List.cons_append, List.nil_append, List.mem_cons,
      Prod.mk.injEq, List.mem_map] at hmem
    rcases hmem with ⟨hnm, _⟩ | ⟨lp, hlp, hEq⟩
    · refine ⟨m.assembly.label, [], Or.inl rfl, ?_⟩
      rw [hnm, part_fq_name_cons]
    · obtain ⟨a, rest, har⟩ :=
        List.exists_cons_of_ne_nil (Compound.leafPaths_fst_ne_nil m.assembly lp hlp)
      refine ⟨a, rest, Or.inr ?_, ?_⟩
      · have : (lp.1, lp.2) ∈ m.assembly.leafPaths := by simpa using hlp
        rw [har] at this
        rw [← hEq.2]
        exact this
      · rw [← hEq.1, har, part_fq_name_cons]

/-- C1 witness: a variant instance of the single-leaf test assembly from
`test_common_model.py`; its sole export name is the suffixed root label. -/
theorem C1_export_part_names_witness :
    ∃ a rest,
      (a :: rest = ["testmodel"] ∨
        (a :: rest, Compound.node "box" []) ∈
          (Compound.node "testmodel" [Compound.node "box" []]).leafPaths) ∧
      "testmodel-large" = String.intercalate "."
        ((if "large" = "" then a else a ++ "-" ++ "large") :: rest) :=
  C1_export_part_names
    ⟨"large", Compound.node "testmodel" [Compound.node "box" []]⟩
    [("testmodel-large", Compound.node "box" [])] rfl
    "testmodel-large" (Compound.node "box" []) (by simp)

/-- C2: with more than one leaf, `export_parts` raises
`Duplicate part name {name}` exactly when some leaf's fully-qualified name
collides with an already-recorded name (the root's or an earlier leaf's); with
all names distinct it returns the assembly under its own fully-qualified name
followed by each leaf under its fully-qualified name. -/
theorem C2_export_parts_duplicates (m : Model)
    (h2 : 2 ≤ m.assembly.leaves.length) :
    (∀ e, m.export_parts = .error e →
        ∃ nm, e = "Duplicate part name " ++ nm ∧ nm ∈ m.leaf_part_names ∧
          2 ≤ (m.assembly_part_name :: m.leaf_part_names).count nm) ∧
    ((m.assembly_part_name :: m.leaf_part_names).Nodup ↔
      m.export_parts =
        .ok ((m.assembly_part_name, m.assembly) :: m.leaf_part_entries)) := by
  have hif : ¬ m.assembly.leaves.length = 1 := by omega
  have hunfold : m.export_parts =
      insertParts [(m.assembly_part_name, m.assembly)] m.leaf_part_entries := by
    simp only [Model.export_parts, if_neg hif]
    rfl
  have hnames : ([(m.assembly_part_name, m.assembly)].map Prod.fst ++
      m.leaf_part_entries.map Prod.fst) =
      m.assembly_part_name :: m.leaf_part_names := by
    simp [leaf_part_entries_map_fst]
  constructor
  · intro e he
    rw [hunfold] at he
    obtain ⟨nm, hnm, hmem, hcount⟩ := insertParts_error _ _ _ he
    refine ⟨nm, hnm, ?_, ?_⟩
    · rwa [leaf_part_entries_map_fst] at hmem
    · rwa [hnames] at hcount
  · constructor
    · intro hnd
      have hacc : ([(m.assembly_part_name, m.assembly)].map Prod.fst).Nodup := by
        simp
      obtain ⟨r, hr⟩ := (insertParts_isOk_iff m.leaf_part_entries _ hacc).mpr
        (by rwa [hnames])
      have := insertParts_ok_val _ _ _ hr
      rw [hunfold, hr, this]
      rfl
    · intro hok
      have hacc : ([(m.assembly_part_name, m.assembly)].map Prod.fst).Nodup := by
        simp
      have := (insertParts_isOk_iff m.leaf_part_entries _ hacc).mp
        ⟨_, hunfold ▸ hok⟩
      rwa [hnames] at this

/-- C2 witness: a two-leaf assembly with distinct labels exports the root and
both leaves; its name list is duplicate-free. -/
theorem C2_export_parts_duplicates_witness :
    2 ≤ (Compound.node "root" [Compound.node "a" [], Compound.node "b" []]).leaves.length ∧
    ((Model.mk "" (Compound.node "root" [Compound.node "a" [], Compound.node "b" []])).assembly_part_name ::
      (Model.mk "" (Compound.node "root" [Compound.node "a" [], Compound.node "b" []])).leaf_part_names).Nodup ∧
    (Model.mk "" (Compound.node "root" [Compound.node "a" [], Compound.node "b" []])).export_parts =
      .ok (((Model.mk "" (Compound.node "root" [Compound.node "a" [], Compound.node "b" []])).assembly_part_name,
            Compound.node "root" [Compound.node "a" [], Compound.node "b" []]) ::
        (Model.mk "" (Compound.node "root" [Compound.node "a" [], Compound.node "b" []])).leaf_part_entries) := by
  refine ⟨by decide, ?_, ?_⟩
  · decide
  · exact (C2_export_parts_duplicates
      (Model.mk "" (Compound.node "root" [Compound.node "a" [], Compound.node "b" []]))
      (by decide)).2.mp (by decide)

/-- C8: when the assembly has exactly one leaf, `export_parts` has exactly one
entry, mapping the assembly's fully-qualified name to that leaf itself; when
the assembly is a genuine wrapper (has children) the stored part is not the
root `Compound`, and no duplicate-name exception is possible. -/
theorem C8_single_leaf_export (m : Model) (p : Compound)
    (h : m.assembly.leaves = [p]) :
    m.export_parts = .ok [(m.assembly_part_name, p)] ∧
    (m.assembly.children ≠ [] → p ≠ m.assembly) := by
  constructor
  · simp only [Model.export_parts, h]
    rfl
  · intro hch hEq
    have hp : m.assembly ∈ m.assembly.leaves := by
      rw [h, hEq]; simp
    cases hA : m.assembly with
    | node l cs =>
      rw [hA] at hp hch
      match cs, hch, hp with
      | c0 :: cs', _, hp =>
        have := Compound.csize_lt_of_mem_leaves l c0 cs' _ hp
        omega

/-- C8 witness: the single-leaf test assembly maps its root name to the boxed
leaf, which differs from the wrapping root compound. -/
theorem C8_single_leaf_export_witness :
    (Model.mk "" (Compound.node "testmodel" [Compound.node "box" []])).export_parts =
      .ok [((Model.mk "" (Compound.node "testmodel" [Compound.node "box" []])).assembly_part_name,
            Compound.node "box" [])] ∧
    ((Compound.node "testmodel" [Compound.node "box" []]).children ≠ [] →
      Compound.node "box" [] ≠ Compound.node "testmodel" [Compound.node "box" []]) :=
  C8_single_leaf_export
    (Model.mk "" (Compound.node "testmodel" [Compound.node "box" []]))
    (Compound.node "box" []) rfl

/-! ### `Model.export`: filesystem effects as an action trace -/

/-- A filesystem effect performed by `Model.export`: `dest.mkdir(exist_ok=True)`
or writing one exported file into a directory. -/
inductive FsAction where
  | mkdirExistOk (dir : String)
  | writeFile (dir : String) (file : String)
deriving DecidableEq, Repr

/-- The body of the export loop: for each `(part_name, part)` of
`export_parts`, in order, write `{part_name}.step` when `step` is set and
`{part_name}.stl` when `stl` is set and the part is a leaf. -/
def exportActions (d : String) (step stl : Bool)
    (parts : List (String × Compound)) : List FsAction :=
  parts.flatMap (fun pp =>
    (if step then [FsAction.writeFile d (pp.1 ++ ".step")] else []) ++
    (if stl && pp.2.is_leaf then [FsAction.writeFile d (pp.1 ++ ".stl")]
     else []))

/-- `Model.export`: defaults the destination to `"."`, creates it
(`mkdir(exist_ok=True)`), then writes each part of `export_parts`; an
exception from `export_parts` propagates. -/
def Model.export (m : Model) (dest : Option String) (step stl : Bool) :
    Except String (List FsAction) :=
  let d := dest.getD "."
  match m.export_parts with
  | .error e => .error e
  | .ok parts => .ok (.mkdirExistOk d :: exportActions d step stl parts)

/-- A minimal filesystem state: existing directories and written files. -/
structure Fs where
  dirs : List String
  files : List (String × String)

def Fs.apply (fs : Fs) : FsAction → Fs
  | .mkdirExistOk d => if d ∈ fs.dirs then fs else ⟨fs.dirs ++ [d], fs.files⟩
  | .writeFile d f =>
      ⟨fs.dirs,
       if (d, f) ∈ fs.files then fs.files else fs.files ++ [(d, f)]⟩

def Fs.applyAll (fs : Fs) (acts : List FsAction) : Fs :=
  acts.foldl Fs.apply fs

theorem Fs.applyAll_writes_dirs :
    ∀ (acts : List FsAction) (fs : Fs),
      (∀ a ∈ acts, ∃ d f, a = FsAction.writeFile d f) →
      (fs.applyAll acts).dirs = fs.dirs
  | [], fs => by intro _; rfl
  | a :: acts, fs => by
      intro h
      obtain ⟨d, f, hdf⟩ := h a (by simp)
      have ih := Fs.applyAll_writes_dirs acts (fs.apply a)
        (fun b hb => h b (by simp [hb]))
      simp only [Fs.applyAll, List.foldl_cons] at ih ⊢
      rw [ih, hdf]
      rfl

theorem mem_exportActions (d : String) (step stl : Bool)
    (parts : List (String × Compound)) (a : FsAction) :
    a ∈ exportActions d step stl parts ↔
      ∃ pp ∈ parts,
        (step = true ∧ a = FsAction.writeFile d (pp.1 ++ ".step")) ∨
        (stl = true ∧ pp.2.is_leaf = true ∧
          a = FsAction.writeFile d (pp.1 ++ ".stl")) := by
  simp only [exportActions, List.mem_flatMap, List.mem_append]
  constructor
  · rintro ⟨pp, hpp, hin | hin⟩
    · refine ⟨pp, hpp, ?_⟩
      cases step
      · simp at hin
      · simp at hin; exact Or.inl ⟨rfl, hin⟩
    · refine ⟨pp, hpp, ?_⟩
      cases hsl : (stl && pp.2.is_leaf)
      · rw [hsl] at hin; simp at hin
      · rw [hsl] at hin
        simp only [if_true, List.mem_singleton] at hin
        rcases (by simpa using hsl : stl = true ∧ pp.2.is_leaf = true)
          with ⟨h1, h2⟩
        exact Or.inr ⟨h1, h2, hin⟩
  · rintro ⟨pp, hpp, ⟨hs, ha⟩ | ⟨hs, hl, ha⟩⟩
    · exact ⟨pp, hpp, Or.inl (by simp [hs, ha])⟩
    · exact ⟨pp, hpp, Or.inr (by simp [hs, hl, ha])⟩

theorem exportActions_all_writes (d : String) (step stl : Bool)
    (parts : List (String × Compound)) :
    ∀ a ∈ exportActions d step stl parts,
      ∃ d' f, a = FsAction.writeFile d' f := by
  intro a ha
  rw [mem_exportActions] at ha
  obtain ⟨pp, _, ⟨_, ha⟩ | ⟨_, _, ha⟩⟩ := ha
  · exact ⟨d, pp.1 ++ ".step", ha⟩
  · exact ⟨d, pp.1 ++ ".stl", ha⟩

/-- C4: when `export_parts` succeeds, `export` first ensures the destination
directory (which defaults to `"."`) exists, then writes exactly
`{name}.step` for every entry when `step` is set and `{name}.stl` for every
leaf entry when `stl` is set, into that directory and nowhere else; running
the trace on any filesystem leaves the destination directory present. -/
theorem C4_export_writes (m : Model) (dest : Option String) (step stl : Bool)
    (parts : List (String × Compound)) (hok : m.export_parts = .ok parts) :
    ∃ writes,
      m.export dest step stl =
        .ok (FsAction.mkdirExistOk (dest.getD ".") :: writes) ∧
      (∀ d f, FsAction.writeFile d f ∈ writes ↔
        (d = dest.getD "." ∧ ∃ nm p, (nm, p) ∈ parts ∧
          ((step = true ∧ f = nm ++ ".step") ∨
           (stl = true ∧ p.is_leaf = true ∧ f = nm ++ ".stl")))) ∧
      (∀ a ∈ writes, ∃ d f, a = FsAction.writeFile d f) ∧
      (∀ fs : Fs, dest.getD "." ∈
        (fs.applyAll (FsAction.mkdirExistOk (dest.getD ".") :: writes)).dirs) := by
  refine ⟨exportActions (dest.getD ".") step stl parts, ?_, ?_, ?_, ?_⟩
  · simp only [Model.export, hok]
  · intro d f
    rw [mem_exportActions]
    constructor
    · rintro ⟨pp, hpp, ⟨hs, ha⟩ | ⟨hs, hl, ha⟩⟩
      · cases ha
        exact ⟨rfl, pp.1, pp.2, by simpa using hpp, Or.inl ⟨hs, rfl⟩⟩
      · cases ha
        exact ⟨rfl, pp.1, pp.2, by simpa using hpp, Or.inr ⟨hs, hl, rfl⟩⟩
    · rintro ⟨hd, nm, p, hmem, ⟨hs, hf⟩ | ⟨hs, hl, hf⟩⟩
      · exact ⟨(nm, p), hmem, Or.inl ⟨hs, by rw [hd, hf]⟩⟩
      · exact ⟨(nm, p), hmem, Or.inr ⟨hs, hl, by rw [hd, hf]⟩⟩
  · exact exportActions_all_writes _ _ _ _
  · intro fs
    simp only [Fs.applyAll, List.foldl_cons]
    have hw := Fs.applyAll_writes_dirs
      (exportActions (dest.getD ".") step stl parts)
      (fs.apply (FsAction.mkdirExistOk (dest.getD ".")))
      (exportActions_all_writes _ _ _ _)
    simp only [Fs.applyAll] at hw
    rw [hw]
    simp only [Fs.apply]
    split
    · assumption
    · simp

/-- C4 witness: exporting the single-leaf test model with `step` and `stl`
both set and the default destination. -/
theorem C4_export_writes_witness :
    ∃ writes,
      (Model.mk "" (Compound.node "testmodel" [Compound.node "box" []])).export
          none true true =
        .ok (FsAction.mkdirExistOk ((none : Option String).getD ".") :: writes) ∧
      (∀ d f, FsAction.writeFile d f ∈ writes ↔
        (d = (none : Option String).getD "." ∧ ∃ nm p,
          (nm, p) ∈ [("testmodel", Compound.node "box" [])] ∧
          ((true = true ∧ f = nm ++ ".step") ∨
           (true = true ∧ p.is_leaf = true ∧ f = nm ++ ".stl")))) ∧
      (∀ a ∈ writes, ∃ d f, a = FsAction.writeFile d f) ∧
      (∀ fs : Fs, (none : Option String).getD "." ∈
        (fs.applyAll (FsAction.mkdirExistOk ((none : Option String).getD ".")
          :: writes)).dirs) :=
  C4_export_writes
    (Model.mk "" (Compound.node "testmodel" [Compound.node "box" []]))
    none true true [("testmodel", Compound.node "box" [])] rfl

/-! ### `ModelRegistry.get_model` (`monobd/common/registry.py`) -/

/-- A Python class object as the registry logic observes it: an identity,
whether it is a `type`, and whether it subclasses `Model`. -/
structure PyClass where
  clsId : Nat
  is_type : Bool
  subclass_of_Model : Bool
deriving DecidableEq, Repr

/-- The import machinery: `import_module` followed by `getattr`, as a partial
map from (module path, attribute name) to class objects. -/
structure ImportEnv where
  resolve : String → String → Option PyClass

/-- `import_path.rsplit(".", 1)`: split at the last `'.'`; `none` models the
`ValueError` of unpacking when the path contains no dot. -/
def rsplitDot (s : String) : Option (String × String) :=
  let cs := s.toList
  match cs.reverse.findIdx? (· == '.') with
  | none => none
  | some i =>
      let n := cs.length - 1 - i
      some (⟨cs.take n⟩, ⟨cs.drop (n + 1)⟩)

/-- `ModelRegistry` is a `dict` of model names to dotted import paths. -/
def ModelRegistry : Type := List (String × String)

/-- `ModelRegistry.get_model`: a missing or falsy (empty) import path raises
`KeyError("Model not found: {name}")`; otherwise the path is split at its last
dot, the module imported, the attribute fetched, and the result asserted to be
a `type` subclassing `Model` before being returned. -/
def ModelRegistry.get_model (env : ImportEnv) (self : ModelRegistry)
    (model_name : String) : Except String PyClass :=
  match List.lookup model_name self with
  | none => .error ("Model not found: " ++ model_name)
  | some import_path =>
      if import_path = "" then .error ("Model not found: " ++ model_name)
      else
        match rsplitDot import_path with
        | none => .error "ValueError: not enough values to unpack"
        | some (module_path, class_name) =>
            match env.resolve module_path class_name with
            | none => .error "ModuleNotFoundError or AttributeError"
            | some model_cls =>
                if model_cls.is_type = false then .error "AssertionError"
                else if model_cls.subclass_of_Model = false then
                  .error "AssertionError"
                else .ok model_cls

/-- The `MODELS` registry of `monobd/__init__.py`. -/
def MODELS : ModelRegistry :=
  [("avrack", "monobd.models.avrack.model.AVRack"),
   ("example", "monobd.models.example.ExampleModel"),
   ("poop_bag_dispenser_wall_mount", "monobd.models.dog.PoopBagDispenserWallMount"),
   ("screw_handle", "monobd.models.hardware.ScrewHandle"),
   ("esp_3dp", "monobd.models.pcb.ESP3DP")]

/-- C3: `get_model` raises `KeyError("Model not found: {name}")` exactly on an
unregistered name or an empty import path; any class it returns has passed the
`issubclass(…, Model)` assertion; and on a registered dotted path whose import
resolves to a `Model` subclass it returns exactly that class. -/
theorem C3_get_model (env : ImportEnv) (registry : ModelRegistry)
    (model_name : String) :
    ((List.lookup model_name registry = none ∨
        List.lookup model_name registry = some "") →
      ModelRegistry.get_model env registry model_name =
        .error ("Model not found: " ++ model_name)) ∧
    (∀ cls, ModelRegistry.get_model env registry model_name = .ok cls →
      cls.is_type = true ∧ cls.subclass_of_Model = true) ∧
    (∀ import_path module_path class_name cls,
      List.lookup model_name registry = some import_path →
      import_path ≠ "" →
      rsplitDot import_path = some (module_path, class_name) →
      env.resolve module_path class_name = some cls →
      cls.is_type = true → cls.subclass_of_Model = true →
      ModelRegistry.get_model env registry model_name = .ok cls) := by
  refine ⟨?_, ?_, ?_⟩
  · rintro (h | h) <;> simp [ModelRegistry.get_model, h]
  · intro cls h
    simp only [ModelRegistry.get_model] at h
    split at h
    · cases h
    · split at h
      · cases h
      · split at h
        · cases h
        · split at h
          · cases h
          · split at h
            · cases h
            · split at h
              · cases h
              · cases h
                rename_i h1 h2
                exact ⟨by simpa using h1, by simpa using h2⟩
  · intro import_path module_path class_name cls hlook hne hsplit hres h1 h2
    simp [ModelRegistry.get_model, hlook, hne, hsplit, hres, h1, h2]

/-- C3 witness: the `example` entry of `MODELS` resolves to its class, and an
unregistered name raises the lookup error. -/
theorem C3_get_model_witness :
    ModelRegistry.get_model
      (ImportEnv.mk (fun mp cn =>
        if mp = "monobd.models.example" ∧ cn = "ExampleModel" then
          some (PyClass.mk 0 true true)
        else none))
      MODELS "example" = .ok (PyClass.mk 0 true true) ∧
    ModelRegistry.get_model
      (ImportEnv.mk (fun mp cn =>
        if mp = "monobd.models.example" ∧ cn = "ExampleModel" then
          some (PyClass.mk 0 true true)
        else none))
      MODELS "nonexistent" = .error ("Model not found: " ++ "nonexistent") := by
  constructor
  · exact (C3_get_model _ MODELS "example").2.2
      "monobd.models.example.ExampleModel" "monobd.models.example"
      "ExampleModel" (PyClass.mk 0 true true)
      (by decide) (by decide) (by decide) (by simp) rfl rfl
  · exact (C3_get_model _ MODELS "nonexistent").1 (Or.inl (by decide))

/-! ### `Model.variant` and named parameter presets -/

/-- `ScrewStyle` enum of `monobd/models/hardware/screw_handle.py`. -/
inductive ScrewStyle where
  | counter_sink
  | counter_bore
deriving DecidableEq, Repr

/-- A Python value stored in a model dataclass field: a number (floats here
are exact decimal/binary fraction constants), `None`, or a `ScrewStyle`. -/
inductive PyVal where
  | num (q : ℚ)
  | pynone
  | style (s : ScrewStyle)
deriving DecidableEq, Repr

/-- A `Model` subclass as `Model.variant` consumes it: its dataclass field
defaults (in declaration order) and its `variants()` presets. -/
structure ModelClassDesc where
  defaults : List (String × PyVal)
  variants : List (String × List (String × PyVal))

/-- An instance of a model dataclass: the `variant_name` field plus the
subclass's own fields. -/
structure ModelInstance where
  variant_name : String
  fields : List (String × PyVal)
deriving DecidableEq, Repr

/-- Dataclass construction with keyword overrides: each field keeps its
default unless the overrides name it. -/
def applyOverrides (defaults overrides : List (String × PyVal)) :
    List (String × PyVal) :=
  defaults.map (fun fd =>
    match List.lookup fd.1 overrides with
    | some v => (fd.1, v)
    | none => fd)

/-- `cls(variant_name=vn, **params)`: a keyword that is not a field raises
`TypeError`, otherwise the instance has the defaults overridden by `params`. -/
def ModelClassDesc.construct (cls : ModelClassDesc) (vn : String)
    (params : List (String × PyVal)) : Except String ModelInstance :=
  if params.all (fun p => (List.lookup p.1 cls.defaults).isSome) then
    .ok ⟨vn, applyOverrides cls.defaults params⟩
  else .error "TypeError: unexpected keyword argument"

/-- `Model.variant`: `variant_name or ""` coerces `None` to `""`; when
`default` is set and the name is not a preset key the default-constructed
instance is returned, otherwise the preset is looked up (raising `KeyError`
when absent) and its parameters override the defaults. -/
def ModelClassDesc.variant (cls : ModelClassDesc)
    (variant_name : Option String) (default : Bool) :
    Except String ModelInstance :=
  let vn := variant_name.getD ""
  match List.lookup vn cls.variants with
  | some params => cls.construct vn params
  | none =>
      if default then cls.construct "" []
      else .error ("KeyError: " ++ vn)

/-- The `ScrewHandle` dataclass and its `variants()` presets
(`monobd/models/hardware/screw_handle.py`); `IN = 25.4`, `MM = 1`. -/
def ScrewHandle : ModelClassDesc :=
  { defaults :=
      [("length", .num (6 * (254/10))),
       ("height", .num ((1 + 1/4) * (254/10))),
       ("thickness", .num (1/2 * (254/10))),
       ("angle", .num 20),
       ("screw_size", .num (3/16 * (254/10))),
       ("screw_style", .style .counter_sink),
       ("screw_hole_depth", .num 0),
       ("screw_hole_countersink_angle", .num 60)],
    variants :=
      [("default", []),
       ("tray",
         [("screw_hole_depth", .num ((1/4 + 1/16) * (254/10))),
          ("screw_size", .num (9/64 * (254/10))),
          ("screw_hole_countersink_angle", .pynone)]),
       ("thin",
         [("thickness", .num (9 * 1)),
          ("screw_hole_countersink_angle", .pynone)])] }

theorem applyOverrides_nil (defaults : List (String × PyVal)) :
    applyOverrides defaults [] = defaults := by
  simp [applyOverrides]

/-- C5: when the requested name is a preset key (with valid parameter names),
`variant` returns an instance carrying that `variant_name` whose fields are
the dataclass defaults overridden by the preset; when `default` is set and the
requested name (including `None`) is not a preset key, it returns the
default-constructed instance whose `variant_name` is `""`. -/
theorem C5_variant_presets (cls : ModelClassDesc) :
    (∀ vn params, List.lookup vn cls.variants = some params →
      params.all (fun p => (List.lookup p.1 cls.defaults).isSome) = true →
      cls.variant (some vn) true =
        .ok ⟨vn, applyOverrides cls.defaults params⟩) ∧
    (∀ vnOpt : Option String,
      List.lookup (vnOpt.getD "") cls.variants = none →
      cls.variant vnOpt true = .ok ⟨"", cls.defaults⟩) := by
  constructor
  · intro vn params hlook hvalid
    simp only [ModelClassDesc.variant, Option.getD_some, hlook,
      ModelClassDesc.construct, hvalid]
    rfl
  · intro vnOpt hlook
    simp only [ModelClassDesc.variant, hlook, if_pos,
      ModelClassDesc.construct, List.all_nil, applyOverrides_nil]

/-- C5 witness: the `tray` preset of `ScrewHandle` overrides the screw hole
depth, screw size and countersink angle, and an unknown name falls back to the
default instance. -/
theorem C5_variant_presets_witness :
    ScrewHandle.variant (some "tray") true =
      .ok ⟨"tray", applyOverrides ScrewHandle.defaults
        [("screw_hole_depth", .num ((1/4 + 1/16) * (254/10))),
         ("screw_size", .num (9/64 * (254/10))),
         ("screw_hole_countersink_angle", .pynone)]⟩ ∧
    ScrewHandle.variant (some "huge") true = .ok ⟨"", ScrewHandle.defaults⟩ :=
  ⟨(C5_variant_presets ScrewHandle).1 "tray"
      [("screw_hole_depth", .num ((1/4 + 1/16) * (254/10))),
       ("screw_size", .num (9/64 * (254/10))),
       ("screw_hole_countersink_angle", .pynone)] (by rfl) (by decide),
   (C5_variant_presets ScrewHandle).2 (some "huge") (by rfl)⟩

/-- C9: with `default=False`, `variant` raises `KeyError` for every name that
is not a preset key; `None` is coerced to `""` first, so it raises whenever
`""` is not a preset key — the path `ModelRenderer.render_variants` takes for
an explicit command-line variant name. -/
theorem C9_variant_keyerror (cls : ModelClassDesc) (vnOpt : Option String)
    (h : List.lookup (vnOpt.getD "") cls.variants = none) :
    cls.variant vnOpt false = .error ("KeyError: " ++ vnOpt.getD "") := by
  simp [ModelClassDesc.variant, h]

/-- C9 witness: `ScrewHandle.variant(None, default=False)` raises `KeyError`
for the coerced empty name, which is not one of its preset keys. -/
theorem C9_variant_keyerror_witness :
    ScrewHandle.variant none false =
      .error ("KeyError: " ++ (none : Option String).getD "") :=
  C9_variant_keyerror ScrewHandle none (by rfl)

/-! ### Determinism of the dispatch glue -/

/-- C7: the dispatch glue is deterministic — `get_model` depends on the
registry only through key lookup, `variant` depends on the class only through
its defaults and preset lookup, and two model instances with the same
`variant_name` and `assembly` yield the same list of export-part names. -/
theorem C7_dispatch_deterministic :
    (∀ (env : ImportEnv) (r1 r2 : ModelRegistry) (name : String),
      (∀ k, List.lookup k r1 = List.lookup k r2) →
      ModelRegistry.get_model env r1 name =
        ModelRegistry.get_model env r2 name) ∧
    (∀ (c1 c2 : ModelClassDesc) (vn : Option String) (d : Bool),
      c1.defaults = c2.defaults →
      (∀ k, List.lookup k c1.variants = List.lookup k c2.variants) →
      c1.variant vn d = c2.variant vn d) ∧
    (∀ m1 m2 : Model, m1.variant_name = m2.variant_name →
      m1.assembly = m2.assembly →
      Except.map (List.map Prod.fst) m1.export_parts =
        Except.map (List.map Prod.fst) m2.export_parts) := by
  refine ⟨?_, ?_, ?_⟩
  · intro env r1 r2 name h
    simp only [ModelRegistry.get_model, h name]
  · intro c1 c2 vn d h1 h2
    simp only [ModelClassDesc.variant, ModelClassDesc.construct, h1,
      h2 (vn.getD "")]
  · intro m1 m2 hv ha
    have : m1 = m2 := by
      cases m1; cases m2
      simp_all
    rw [this]

/-- C7 witness: instantiated at the `MODELS` registry, the `ScrewHandle`
class and the single-leaf test model. -/
theorem C7_dispatch_deterministic_witness :
    ModelRegistry.get_model (ImportEnv.mk (fun _ _ => none)) MODELS "example" =
      ModelRegistry.get_model (ImportEnv.mk (fun _ _ => none)) MODELS "example" ∧
    ScrewHandle.variant (some "tray") false =
      ScrewHandle.variant (some "tray") false ∧
    Except.map (List.map Prod.fst)
        (Model.mk "" (Compound.node "testmodel" [Compound.node "box" []])).export_parts =
      Except.map (List.map Prod.fst)
        (Model.mk "" (Compound.node "testmodel" [Compound.node "box" []])).export_parts :=
  ⟨(C7_dispatch_deterministic).1 (ImportEnv.mk (fun _ _ => none)) MODELS MODELS
      "example" (fun _ => rfl),
   (C7_dispatch_deterministic).2.1 ScrewHandle ScrewHandle (some "tray") false
      rfl (fun _ => rfl),
   (C7_dispatch_deterministic).2.2
      (Model.mk "" (Compound.node "testmodel" [Compound.node "box" []]))
      (Model.mk "" (Compound.node "testmodel" [Compound.node "box" []]))
      rfl rfl⟩

/-! ### `Model.__init_subclass__` registration -/

/-- A `Model` subclass definition: the required `name` class keyword plus the
rest of the class body (abstracted to an identifier). -/
structure ClassDef where
  name : String
  body : Nat
deriving DecidableEq, Repr

/-- `__init_subclass__` sets `cls.model_name = name`. -/
def ClassDef.model_name (c : ClassDef) : String := c.name

/-- Python `dict` assignment `d[k] = v`: replace the value of an existing key
in place, else append the new key at the end. -/
def dictInsert : List (String × ClassDef) → String → ClassDef →
    List (String × ClassDef)
  | [], k, v => [(k, v)]
  | (k', v') :: rest, k, v =>
      if k' = k then (k, v) :: rest else (k', v') :: dictInsert rest k v

/-- The contents of `Model._models` after a sequence of subclass definitions:
each definition executes `cls._models[name] = cls`. -/
def defineSubclasses (defs : List ClassDef) : List (String × ClassDef) :=
  defs.foldl (fun m c => dictInsert m c.name c) []

theorem lookup_cons_ite {β : Type} (a k : String) (b : β)
    (es : List (String × β)) :
    List.lookup a ((k, b) :: es) =
      if a = k then some b else List.lookup a es := by
  by_cases h : a = k
  · subst h; simp [List.lookup]
  · have hb : (a == k) = false := by simpa using h
    simp [List.lookup, hb, h]

theorem lookup_dictInsert :
    ∀ (m : List (String × ClassDef)) (k : String) (v : ClassDef) (n : String),
      List.lookup n (dictInsert m k v) =
        if n = k then some v else List.lookup n m
  | [], k, v, n => by
      simp only [dictInsert]
      rw [lookup_cons_ite]
  | (k', v') :: rest, k, v, n => by
      simp only [dictInsert]
      split
      · rename_i hkk
        subst hkk
        rw [lookup_cons_ite, lookup_cons_ite]
        by_cases h : n = k' <;> simp [h]
      · rename_i hkk
        rw [lookup_cons_ite, lookup_cons_ite, lookup_dictInsert rest k v n]
        by_cases h : n = k'
        · subst h
          have hnk : ¬ n = k := hkk
          simp [hnk]
        · simp [h]

theorem lookup_defineSubclasses (defs : List ClassDef) (n : String) :
    List.lookup n (defineSubclasses defs) =
      List.find? (fun d => d.name == n) defs.reverse := by
  induction defs using List.reverseRecOn with
  | nil => simp [defineSubclasses, List.lookup]
  | append_singleton defs c ih =>
      have hfold : defineSubclasses (defs ++ [c]) =
          dictInsert (defineSubclasses defs) c.name c := by
        simp [defineSubclasses, List.foldl_append]
      rw [hfold, lookup_dictInsert, List.reverse_append]
      simp only [List.reverse_singleton, List.singleton_append]
      by_cases h : n = c.name
      · simp [List.find?_cons, h]
      · have hb : (c.name == n) = false := by
          simpa using fun hc => h hc.symm
        simp only [List.find?_cons, hb, if_neg h]
        exact ih

/-- C10: every subclass definition carries a required `name` keyword, the
defined class's `model_name` is that name, and after any sequence of
definitions `Model._models` maps each defined class's `model_name` to the
most recently defined class bearing that name; in particular every defined
name is present in the mapping. -/
theorem C10_subclass_registration (defs : List ClassDef) (c : ClassDef)
    (hc : c ∈ defs) :
    c.model_name = c.name ∧
    List.lookup c.model_name (defineSubclasses defs) =
      List.find? (fun d => d.name == c.name) defs.reverse ∧
    ∃ d, List.lookup c.model_name (defineSubclasses defs) = some d ∧
      d.name = c.name := by
  refine ⟨rfl, lookup_defineSubclasses defs c.name, ?_⟩
  simp only [ClassDef.model_name]
  rw [lookup_defineSubclasses defs c.name]
  have hmem : c ∈ defs.reverse := List.mem_reverse.mpr hc
  have hsome : (List.find? (fun d => d.name == c.name) defs.reverse).isSome := by
    rw [List.find?_isSome]
    exact ⟨c, hmem, by simp⟩
  obtain ⟨d, hd⟩ := Option.isSome_iff_exists.mp hsome
  refine ⟨d, hd, ?_⟩
  have := List.find?_some hd
  simpa using this

/-- C10 witness: two definitions sharing the name `"m"`; the registry maps
`"m"` to the most recent one. -/
theorem C10_subclass_registration_witness :
    (ClassDef.mk "m" 0).model_name = "m" ∧
    List.lookup (ClassDef.mk "m" 0).model_name
        (defineSubclasses [ClassDef.mk "m" 0, ClassDef.mk "m" 1]) =
      List.find? (fun d => d.name == "m")
        [ClassDef.mk "m" 0, ClassDef.mk "m" 1].reverse ∧
    ∃ d, List.lookup (ClassDef.mk "m" 0).model_name
        (defineSubclasses [ClassDef.mk "m" 0, ClassDef.mk "m" 1]) = some d ∧
      d.name = "m" :=
  C10_subclass_registration [ClassDef.mk "m" 0, ClassDef.mk "m" 1]
    (ClassDef.mk "m" 0) (by simp)

end Monobd
